import Mathlib

/-!
Shallow embedding of the tb-lint core (src/src/utils/caseUtils.ts) and the
Tinybird file scanners (src/src/tb-lint/parsers.ts), together with proofs
about the case-classification, case-conversion and scanning behaviour.

Strings are modelled as Lean `String`/`List Char`; the JS regexes of the
source are embedded as explicit scanning functions with the same
left-to-right, non-overlapping match semantics.
-/

namespace TbLint

/-! ### Character classes (ASCII) -/

/-- the regex class [A-Z] -/
def up (c : Char) : Bool := 65 ≤ c.toNat && c.toNat ≤ 90

/-- the regex class [a-z] -/
def low (c : Char) : Bool := 97 ≤ c.toNat && c.toNat ≤ 122

/-- the regex class [0-9] -/
def dig (c : Char) : Bool := 48 ≤ c.toNat && c.toNat ≤ 57

/-- the regex class [a-z0-9] -/
def ld (c : Char) : Bool := low c || dig c

/-- the regex class [a-zA-Z0-9] -/
def alnum (c : Char) : Bool := low c || up c || dig c

/-- String.prototype.toLowerCase on one character (ASCII range) -/
def toLowerCh (c : Char) : Char := if up c then Char.ofNat (c.toNat + 32) else c

/-- String.prototype.toUpperCase on one character (ASCII range) -/
def toUpperCh (c : Char) : Char := if low c then Char.ofNat (c.toNat - 32) else c

/-! ### Generic list-of-characters helpers -/

/-- `leadsWith p l` : does `l` start with the character sequence `p`?
    (String.prototype.startsWith) -/
def leadsWith : List Char → List Char → Bool
  | [], _ => true
  | _ :: _, [] => false
  | p :: ps, c :: cs => p == c && leadsWith ps cs

/-- does `l` contain the character sequence `pat` (contiguously)?
    (the regex test /__/ and similar substring tests) -/
def containsSeq (pat : List Char) : List Char → Bool
  | [] => leadsWith pat []
  | c :: cs => leadsWith pat (c :: cs) || containsSeq pat cs

/-- String.prototype.endsWith('_') -/
def lastIsUnderscore : List Char → Bool
  | [] => false
  | [c] => c == '_'
  | _ :: c :: r => lastIsUnderscore (c :: r)

/-- the regex test /^[a-z]/ -/
def headIsLow : List Char → Bool
  | [] => false
  | c :: _ => low c

/-! ### caseUtils.ts : isCamelCase (lines 11-21) -/

/-- the regex test /^[a-z][a-zA-Z0-9]*$/ -/
def camelPat : List Char → Bool
  | [] => false
  | c :: rest => low c && rest.all alnum

/-- isCamelCase, caseUtils.ts lines 11-21 -/
def isCamelCase (name : String) : Bool :=
  if name.data.length == 0 then false
  else if !(headIsLow name.data) then false
  else if !(camelPat name.data) then false
  else true

/-! ### caseUtils.ts : isSnakeCase (lines 29-42) -/

/-- the regex test /^[a-z][a-z0-9_]*$/ -/
def snakePat : List Char → Bool
  | [] => false
  | c :: rest => low c && rest.all (fun x => ld x || x == '_')

/-- isSnakeCase, caseUtils.ts lines 29-42 -/
def isSnakeCase (name : String) : Bool :=
  if name.data.length == 0 then false
  else if !(headIsLow name.data) then false
  else if !(snakePat name.data) then false
  else if containsSeq ('_' :: '_' :: []) name.data || lastIsUnderscore name.data then false
  else true

/-! ### caseUtils.ts : camelToSnake (lines 52-63)

The source applies two global regex replaces and then lowercases:
  .replace(/([a-z0-9])([A-Z])/g, '$1_$2')
  .replace(/([A-Z])([A-Z][a-z])/g, '$1_$2')
  .toLowerCase()
`pass1`/`pass2` embed the two replaces with the JS left-to-right,
non-overlapping scan: a successful match consumes its characters and the
scan resumes after them. -/

/-- replace(/([a-z0-9])([A-Z])/g, '$1_$2'), JS scan semantics -/
def pass1 : List Char → List Char
  | a :: b :: l => if ld a && up b then a :: '_' :: b :: pass1 l else a :: pass1 (b :: l)
  | l => l

/-- replace(/([A-Z])([A-Z][a-z])/g, '$1_$2'), JS scan semantics -/
def pass2 : List Char → List Char
  | a :: b :: c :: l =>
    if up a && up b && low c then a :: '_' :: b :: c :: pass2 l
    else a :: pass2 (b :: c :: l)
  | l => l

/-- camelToSnake, caseUtils.ts lines 52-63 -/
def camelToSnake (name : String) : String :=
  if name = "" then name
  else String.mk (List.map toLowerCh (pass2 (pass1 name.data)))

/-! ### caseUtils.ts : snakeToCamel (lines 72-78) -/

/-- replace(/_([a-z0-9])/g, (_, char) => char.toUpperCase()), JS scan
    semantics: an underscore followed by [a-z0-9] is removed and the
    following character uppercased; other underscores are left alone. -/
def sc : List Char → List Char
  | [] => []
  | c :: l =>
    if c = '_' then
      match l with
      | d :: l2 => if ld d then toUpperCh d :: sc l2 else '_' :: sc (d :: l2)
      | [] => ['_']
    else c :: sc l

/-- snakeToCamel, caseUtils.ts lines 72-78 -/
def snakeToCamel (name : String) : String :=
  if name = "" then name
  else String.mk (sc (List.map toLowerCh name.data))

/-! ### caseUtils.ts : validateMapping (lines 83-85) -/

/-- validateMapping, caseUtils.ts lines 83-85 -/
def validateMapping (camelName snakeName : String) : Bool :=
  camelToSnake camelName == snakeName

/-! ### Spec-rule versions of the converters

These definitions follow the specification's wording, to be compared with
the source-embedded functions above. -/

/-- Spec rule (a): an underscore is inserted between a lowercase-or-digit
    character and a following uppercase character (pointwise, at every such
    adjacent pair). -/
def ins1 : List Char → List Char
  | a :: b :: l =>
    if ld a && up b then a :: '_' :: ins1 (b :: l) else a :: ins1 (b :: l)
  | l => l

/-- Spec rule (b): an underscore is inserted between an uppercase character
    and a following uppercase-then-lowercase pair (pointwise, at every such
    triple). -/
def ins2 : List Char → List Char
  | a :: b :: c :: l =>
    if up a && up b && low c then a :: '_' :: ins2 (b :: c :: l)
    else a :: ins2 (b :: c :: l)
  | l => l

/-- camelToSnake as the specification words it: insert an underscore at
    every rule-(a) boundary, then at every rule-(b) boundary, then
    lowercase the whole result. -/
def camelToSnakeSpec (name : String) : String :=
  String.mk (List.map toLowerCh (ins2 (ins1 name.data)))

/-- The character-level core of camelToSnake (both boundary rules, then
    lowercasing), in the pointwise form. -/
def conv (l : List Char) : List Char :=
  List.map toLowerCh (ins2 (ins1 l))

/-- Shape invariant of camelToSnake outputs (after the leading character):
    only lowercase letters, digits and underscores appear; every underscore
    is followed by a lowercase letter; and a one-letter word between two
    underscores is followed by a word whose first two characters are
    lowercase letters. The invariant is exactly what makes
    conv (sc t) = t hold (see `convB`). -/
def okT : List Char → Bool
  | [] => true
  | c :: rest =>
    if c = '_' then
      match rest with
      | [] => false
      | y :: rest2 =>
        if low y then
          match rest2 with
          | [] => true
          | u :: rest3 =>
            if u = '_' then
              match rest3 with
              | z :: w :: rest4 => low z && low w && okT (w :: rest4)
              | _ => false
            else okT (u :: rest3)
        else false
    else ld c && okT rest

/-- The claim's literal description of snakeToCamel: lowercase the whole
    input, then every underscore followed by a character (any character) is
    removed and that following character uppercased. -/
def scClaim : List Char → List Char
  | [] => []
  | c :: l =>
    if c = '_' then
      match l with
      | d :: l2 => toUpperCh d :: scClaim l2
      | [] => ['_']
    else c :: scClaim l

/-- snakeToCamel as the claim words it (see `scClaim`). -/
def snakeToCamelClaim (name : String) : String :=
  String.mk (scClaim (List.map toLowerCh name.data))

/-- The amended description of the snakeToCamel rule: lowercase the whole
    input, then every underscore followed by a lowercase letter or digit is
    removed and that following character uppercased (a no-op for digits);
    an underscore followed by anything else is left in place. -/
def scAmended : List Char → List Char
  | [] => []
  | c :: l =>
    if c = '_' then
      match l with
      | d :: l2 => if ld d then toUpperCh d :: scAmended l2 else '_' :: scAmended (d :: l2)
      | [] => ['_']
    else c :: scAmended l

/-- snakeToCamel as the amended claim words it (see `scAmended`). -/
def snakeToCamelAmended (name : String) : String :=
  String.mk (scAmended (List.map toLowerCh name.data))

/-! ### parsers.ts : data model -/

/-- LintIssue, parsers.ts lines 8-14 (severity modelled as its string) -/
structure LintIssue where
  file : String
  line : Nat
  column : String
  issue : String
  severity : String
deriving DecidableEq

/-! ### parsers.ts : shared text scanning -/

/-- the JS regex class \s (ASCII whitespace and NBSP) -/
def isWs (c : Char) : Bool :=
  c == ' ' || c == '\t' || c == '\n' || c == '\r' ||
  c == Char.ofNat 11 || c == Char.ofNat 12 || c == Char.ofNat 160

/-- the regex class \w, also [a-zA-Z0-9_] -/
def isWordCh (c : Char) : Bool := alnum c || c == '_'

/-- the regex class [a-zA-Z_] (leading identifier character) -/
def wordStart (c : Char) : Bool := low c || up c || c == '_'

/-- the regex class [a-z_] under the i flag, i.e. [a-zA-Z_] -/
def isAliasCh (c : Char) : Bool := low c || up c || c == '_'

/-- the backquote character -/
def backquoteCh : Char := Char.ofNat 96

/-- content.split('\n') -/
def splitLines : List Char → List (List Char)
  | [] => [[]]
  | c :: rest =>
    if c = '\n' then [] :: splitLines rest
    else
      match splitLines rest with
      | l :: ls => (c :: l) :: ls
      | [] => [[c]]

/-- String.prototype.trim() -/
def trimList (l : List Char) : List Char :=
  ((l.dropWhile isWs).reverse.dropWhile isWs).reverse

/-! ### parsers.ts : parsePipe (lines 74-141) -/

/-- One attempt of /\b([a-zA-Z_][a-zA-Z0-9_]*)\s+AS\s+([a-zA-Z_][a-zA-Z0-9_]*)/i
    at the current position (the word boundary is ensured by the caller).
    The sub-patterns are pairwise disjoint character classes, so greedy
    matching is deterministic. Returns (capture1, capture2, rest after the
    match). -/
def tryMatchAS : List Char → Option (List Char × List Char × List Char)
  | [] => none
  | c :: ls =>
    if wordStart c then
      let w := ls.takeWhile isWordCh
      let r1 := ls.dropWhile isWordCh
      let s1 := r1.takeWhile isWs
      let r2 := r1.dropWhile isWs
      if s1.isEmpty then none
      else
        match r2 with
        | a :: s :: r3 =>
          if (a == 'A' || a == 'a') && (s == 'S' || s == 's') then
            let s2 := r3.takeWhile isWs
            let r4 := r3.dropWhile isWs
            if s2.isEmpty then none
            else
              match r4 with
              | d :: r5 =>
                if wordStart d then
                  some (c :: w, d :: r5.takeWhile isWordCh, r5.dropWhile isWordCh)
                else none
              | [] => none
          else none
        | _ => none
    else none

/-- String.prototype.matchAll scan: try each position left to right, and
    resume after the end of a successful match. `prevWord` records whether
    the previous character is a word character (the \b assertion). The fuel
    is the number of remaining scan steps; each step consumes at least one
    character, so `length + 1` fuel (see `matchAllAS`) never runs out. -/
def goAS : Nat → Bool → List Char → List (List Char × List Char)
  | 0, _, _ => []
  | _ + 1, _, [] => []
  | fuel + 1, prevWord, c :: ls =>
    if prevWord then goAS fuel (isWordCh c) ls
    else
      match tryMatchAS (c :: ls) with
      | some (c1, c2, rest) => (c1, c2) :: goAS fuel true rest
      | none => goAS fuel (isWordCh c) ls

/-- line.matchAll(/\b([a-zA-Z_][a-zA-Z0-9_]*)\s+AS\s+([a-zA-Z_][a-zA-Z0-9_]*)/gi) -/
def matchAllAS (l : List Char) : List (List Char × List Char) :=
  goAS (l.length + 1) false l

/-- The capture ([a-z_]+[_][a-z_]+) (with the i flag) anchored at the start
    of a run of [a-zA-Z_] characters matches the whole run exactly when the
    run has an underscore at an interior position (not first, not last). -/
def hasInnerUnderscore (run : List Char) : Bool :=
  ((run.drop 1).dropLast).any (fun c => c == '_')

/-- One attempt of /AS\s+([a-z_]+[_][a-z_]+)/i at the current position. -/
def tryASalias : List Char → Option (List Char)
  | a :: s :: rest =>
    if (a == 'A' || a == 'a') && (s == 'S' || s == 's') then
      let ws := rest.takeWhile isWs
      let r2 := rest.dropWhile isWs
      if ws.isEmpty then none
      else
        let run := r2.takeWhile isAliasCh
        if hasInnerUnderscore run then some run else none
    else none
  | _ => none

/-- line.match(/AS\s+([a-z_]+[_][a-z_]+)/i): the first match found by the
    left-to-right scan, if any. -/
def findSnakeAliasCap : List Char → Option (List Char)
  | [] => none
  | c :: ls =>
    match tryASalias (c :: ls) with
    | some cap => some cap
    | none => findSnakeAliasCap ls

/-- The issues produced for one `column AS alias` match, parsers.ts
    lines 96-122: a snake_case check on the column (function calls are
    excluded) and a camelCase check on the alias. -/
def asPairIssues (f : String) (n : Nat) (pair : List Char × List Char) : List LintIssue :=
  (if !(isSnakeCase (String.mk pair.1)) && !(pair.1.any (fun c => c == '(')) then
    [⟨f, n, String.mk pair.1,
      "Column \"" ++ String.mk pair.1 ++ "\" should be in snake_case", "error"⟩]
  else []) ++
  (if !(isCamelCase (String.mk pair.2)) then
    [⟨f, n, String.mk pair.2,
      "Alias \"" ++ String.mk pair.2 ++ "\" should be in camelCase for API output", "error"⟩]
  else [])

/-- All issues produced for one line of a pipe file while inside a SQL
    block, parsers.ts lines 92-137: the AS-pair checks followed by the
    additional snake_case-alias check. -/
def pipeLineIssues (f : String) (n : Nat) (line : List Char) : List LintIssue :=
  ((matchAllAS line).map (asPairIssues f n)).flatten ++
  (match findSnakeAliasCap line with
   | some cap =>
     if isSnakeCase (String.mk cap) then
       [⟨f, n, String.mk cap,
         "Alias \"" ++ String.mk cap ++ "\" is snake_case but should be camelCase for API output",
         "error"⟩]
     else []
   | none => [])

/-- trimmed.toUpperCase().startsWith('SELECT') || startsWith('WITH') -/
def sqlStartLine (line : List Char) : Bool :=
  leadsWith "SELECT".data (List.map toUpperCh (trimList line)) ||
  leadsWith "WITH".data (List.map toUpperCh (trimList line))

/-- The line loop of parsePipe, parsers.ts lines 81-138: `inSql` is the
    inSqlBlock flag, `n` the 1-based number of the next line. -/
def pipeGo (f : String) : Nat → Bool → List (List Char) → List LintIssue
  | _, _, [] => []
  | n, inSql, line :: rest =>
    let inSql2 := inSql || sqlStartLine line
    (if inSql2 then pipeLineIssues f n line else []) ++ pipeGo f (n + 1) inSql2 rest

/-- parsePipe, parsers.ts lines 74-141 -/
def parsePipe (content filename : String) : List LintIssue :=
  pipeGo filename 1 false (splitLines content.data)

/-! ### parsers.ts : parseDatasource (lines 19-67) -/

/-- the capture of trimmed.match(/^`?([a-zA-Z_][a-zA-Z0-9_]*)`?\s+\w+/) -/
def columnCap (t : List Char) : Option (List Char) :=
  let t1 := match t with
    | c :: r => if c == backquoteCh then r else t
    | [] => t
  match t1 with
  | c :: r =>
    if wordStart c then
      let cap := c :: r.takeWhile isWordCh
      let r2 := r.dropWhile isWordCh
      let r3 := match r2 with
        | b :: rb => if b == backquoteCh then rb else r2
        | [] => r2
      let ws := r3.takeWhile isWs
      let r4 := r3.dropWhile isWs
      if ws.isEmpty then none
      else
        match r4 with
        | d :: _ => if isWordCh d then some cap else none
        | [] => none
    else none
  | [] => none

/-- The issues produced for one non-comment, non-empty line of the SCHEMA
    section, parsers.ts lines 45-63. -/
def dsLineIssues (f : String) (n : Nat) (t : List Char) : List LintIssue :=
  match columnCap t with
  | some col =>
    if !(isSnakeCase (String.mk col)) then
      [⟨f, n, String.mk col,
        "Column name \"" ++ String.mk col ++ "\" should be in snake_case", "error"⟩]
    else []
  | none => []

/-- The line loop of parseDatasource, parsers.ts lines 26-64. -/
def dsGo (f : String) : Nat → Bool → List (List Char) → List LintIssue
  | _, _, [] => []
  | n, inSchema, line :: rest =>
    let t := trimList line
    if leadsWith "SCHEMA".data (List.map toUpperCh t) then dsGo f (n + 1) true rest
    else if inSchema && (leadsWith "ENGINE".data (List.map toUpperCh t) || t.isEmpty) then
      dsGo f (n + 1)
        (if leadsWith "ENGINE".data (List.map toUpperCh t) then false else inSchema) rest
    else if inSchema && !t.isEmpty && !(leadsWith "#".data t) then
      dsLineIssues f n t ++ dsGo f (n + 1) inSchema rest
    else dsGo f (n + 1) inSchema rest

/-- parseDatasource, parsers.ts lines 19-67 -/
def parseDatasource (content filename : String) : List LintIssue :=
  dsGo filename 1 false (splitLines content.data)

/-- Reference behaviour of the pipe line loop once a SQL block has begun:
    every remaining line is scanned for issues, with increasing line
    numbers. -/
def allPipeIssues (f : String) : Nat → List (List Char) → List LintIssue
  | _, [] => []
  | n, line :: rest => pipeLineIssues f n line ++ allPipeIssues f (n + 1) rest

/-! ## Character class facts -/

theorem up_iff {c : Char} : up c = true ↔ (65 ≤ c.toNat ∧ c.toNat ≤ 90) := by simp [up]

theorem low_iff {c : Char} : low c = true ↔ (97 ≤ c.toNat ∧ c.toNat ≤ 122) := by simp [low]

theorem dig_iff {c : Char} : dig c = true ↔ (48 ≤ c.toNat ∧ c.toNat ≤ 57) := by simp [dig]

theorem ld_iff {c : Char} : ld c = true ↔ (low c = true ∨ dig c = true) := by simp [ld]

theorem alnum_iff {c : Char} :
    alnum c = true ↔ (low c = true ∨ up c = true ∨ dig c = true) := by
  simp [alnum, or_assoc]

theorem ofNat_toNat_eq (n : Nat) (h : n < 55296) : (Char.ofNat n).toNat = n := by
  rw [Char.ofNat, dif_pos]
  · simp [Char.toNat, Char.ofNatAux, UInt32.toNat, Nat.toUInt32]
  · exact Or.inl h

theorem up_false_of_ld {c : Char} (h : ld c = true) : up c = false := by
  cases hu : up c
  · rfl
  · rw [ld_iff] at h
    rw [up_iff] at hu
    rcases h with h | h
    · rw [low_iff] at h; omega
    · rw [dig_iff] at h; omega

theorem ld_false_of_up {c : Char} (h : up c = true) : ld c = false := by
  cases hl : ld c
  · rfl
  · rw [up_iff] at h
    rw [ld_iff] at hl
    rcases hl with hl | hl
    · rw [low_iff] at hl; omega
    · rw [dig_iff] at hl; omega

theorem up_false_of_low {c : Char} (h : low c = true) : up c = false :=
  up_false_of_ld (ld_iff.mpr (Or.inl h))

theorem toLowerCh_toNat {c : Char} (h : up c = true) :
    (toLowerCh c).toNat = c.toNat + 32 := by
  rw [up_iff] at h
  rw [toLowerCh, if_pos (up_iff.mpr h), ofNat_toNat_eq]
  omega

theorem low_toLowerCh {c : Char} (h : up c = true) : low (toLowerCh c) = true := by
  rw [low_iff, toLowerCh_toNat h]
  rw [up_iff] at h
  omega

theorem toLowerCh_eq_self {c : Char} (h : up c = false) : toLowerCh c = c := by
  rw [toLowerCh, if_neg]
  simp [h]

theorem toUpperCh_toNat {c : Char} (h : low c = true) :
    (toUpperCh c).toNat = c.toNat - 32 := by
  rw [low_iff] at h
  rw [toUpperCh, if_pos (low_iff.mpr h), ofNat_toNat_eq]
  omega

theorem up_toUpperCh {c : Char} (h : low c = true) : up (toUpperCh c) = true := by
  rw [up_iff, toUpperCh_toNat h]
  rw [low_iff] at h
  omega

theorem charEq_of_toNat_eq {a b : Char} (h : a.toNat = b.toNat) : a = b := by
  apply Char.ext
  apply UInt32.ext
  simpa [Char.toNat, UInt32.toNat] using h

theorem toLowerCh_toUpperCh {c : Char} (h : low c = true) :
    toLowerCh (toUpperCh c) = c := by
  apply charEq_of_toNat_eq
  rw [toLowerCh_toNat (up_toUpperCh h), toUpperCh_toNat h]
  rw [low_iff] at h
  omega

/-! ## The two camelToSnake replaces are the pointwise boundary rules -/

theorem ins1_cons_not_ld {a : Char} (l : List Char) (h : ld a = false) :
    ins1 (a :: l) = a :: ins1 l := by
  cases l with
  | nil => rfl
  | cons b l => simp [ins1, h]

theorem ins1_cons_not_up (a : Char) {b : Char} (l : List Char) (h : up b = false) :
    ins1 (a :: b :: l) = a :: ins1 (b :: l) := by
  simp [ins1, h]

theorem ins2_cons_not_up {a : Char} (l : List Char) (h : up a = false) :
    ins2 (a :: l) = a :: ins2 l := by
  match l with
  | [] => rfl
  | [b] => rfl
  | b :: c :: r => simp [ins2, h]

theorem ins2_cons_snd_not_up (a : Char) {b : Char} (l : List Char) (h : up b = false) :
    ins2 (a :: b :: l) = a :: ins2 (b :: l) := by
  match l with
  | [] => rfl
  | c :: r => simp [ins2, h]

theorem ins2_cons_thd_not_low (a b : Char) {c : Char} (l : List Char) (h : low c = false) :
    ins2 (a :: b :: c :: l) = a :: ins2 (b :: c :: l) := by
  simp [ins2, h]

theorem pass1_eq_ins1 : ∀ l : List Char, pass1 l = ins1 l := by
  intro l
  induction l using pass1.induct with
  | case1 a b l hab ih =>
    have hb : up b = true := by
      simp only [Bool.and_eq_true] at hab
      exact hab.2
    rw [pass1, if_pos hab, ins1, if_pos hab,
        ins1_cons_not_ld l (ld_false_of_up hb), ih]
  | case2 a b l hab ih =>
    rw [pass1, if_neg hab, ins1, if_neg hab, ih]
  | case3 l h =>
    match l with
    | [] => rfl
    | [a] => rfl
    | a :: b :: l => exact absurd rfl (h a b l)

theorem pass2_eq_ins2 : ∀ l : List Char, pass2 l = ins2 l := by
  intro l
  induction l using pass2.induct with
  | case1 a b c l habc ih =>
    simp only [Bool.and_eq_true] at habc
    obtain ⟨⟨ha, hb⟩, hc⟩ := habc
    have h1 : up c = false := by
      cases hu : up c
      · rfl
      · rw [low_iff] at hc; rw [up_iff] at hu; omega
    rw [pass2, if_pos (by simp [ha, hb, hc]), ins2, if_pos (by simp [ha, hb, hc]),
        ins2_cons_snd_not_up b l h1, ins2_cons_not_up l h1, ih]
  | case2 a b c l habc ih =>
    rw [pass2, if_neg habc, ins2, if_neg habc, ih]
  | case3 l h =>
    match l with
    | [] => rfl
    | [a] => rfl
    | [a, b] => rfl
    | a :: b :: c :: l => exact absurd rfl (h a b c l)

theorem sc_eq_scAmended : ∀ l : List Char, sc l = scAmended l := by
  intro l
  induction l using sc.induct with
  | case1 => rfl
  | case2 c l h ih => simp [sc, scAmended, h, ih]
  | case3 c l h ih => simp [sc, scAmended, h, ih]
  | case4 => rfl
  | case5 c l hc ih => rw [sc.eq_def, scAmended.eq_def]; simp [hc, ih]

/-! ## Substring and suffix characterizations -/

theorem leadsWith_iff (p : List Char) : ∀ l, leadsWith p l = true ↔ ∃ t, l = p ++ t := by
  induction p with
  | nil => intro l; simp [leadsWith]
  | cons x xs ih =>
    intro l
    cases l with
    | nil => simp [leadsWith]
    | cons c cs =>
      simp only [leadsWith, Bool.and_eq_true, beq_iff_eq, ih, List.cons_append,
        List.cons.injEq]
      constructor
      · rintro ⟨rfl, t, rfl⟩; exact ⟨t, rfl, rfl⟩
      · rintro ⟨t, rfl, rfl⟩; exact ⟨rfl, t, rfl⟩

theorem containsSeq_iff (pat : List Char) :
    ∀ l, containsSeq pat l = true ↔ ∃ l1 l2, l = l1 ++ pat ++ l2 := by
  intro l
  induction l with
  | nil =>
    rw [containsSeq, leadsWith_iff]
    constructor
    · rintro ⟨t, ht⟩
      exact ⟨[], t, by simpa using ht⟩
    · rintro ⟨l1, l2, hl⟩
      refine ⟨l2, ?_⟩
      rcases List.append_eq_nil.mp ((List.append_assoc l1 pat l2) ▸ hl).symm with ⟨h1, h2⟩
      subst h1
      simpa using hl
  | cons c cs ih =>
    rw [containsSeq]
    simp only [Bool.or_eq_true, leadsWith_iff, ih]
    constructor
    · rintro (⟨t, ht⟩ | ⟨l1, l2, rfl⟩)
      · exact ⟨[], t, by simpa using ht⟩
      · exact ⟨c :: l1, l2, by simp⟩
    · rintro ⟨l1, l2, hl⟩
      cases l1 with
      | nil => exact Or.inl ⟨l2, by simpa using hl⟩
      | cons x xs =>
        rw [List.cons_append, List.cons_append] at hl
        injection hl with h1 h2
        exact Or.inr ⟨xs, l2, by simp [h2]⟩

theorem lastIsUnderscore_iff :
    ∀ l : List Char, lastIsUnderscore l = true ↔ l.getLast? = some '_' := by
  intro l
  induction l using lastIsUnderscore.induct with
  | case1 => simp [lastIsUnderscore]
  | case2 c => simp [lastIsUnderscore]
  | case3 a c r ih => rw [lastIsUnderscore, List.getLast?_cons_cons, ih]

/-! ## Classifier characterizations -/

theorem isCamelCase_eq (s : String) :
    isCamelCase s = (headIsLow s.data && camelPat s.data) := by
  unfold isCamelCase
  by_cases h0 : s.data.length == 0
  · have hnil : s.data = [] := List.eq_nil_of_length_eq_zero (beq_iff_eq.mp h0)
    simp [hnil, headIsLow]
  · rw [Bool.not_eq_true] at h0
    have hlen : ¬ s.length = 0 := by simpa using h0
    cases h1 : headIsLow s.data <;> cases h2 : camelPat s.data <;> simp [h0, h1, h2, hlen]

theorem isSnakeCase_eq (s : String) :
    isSnakeCase s = (headIsLow s.data && snakePat s.data &&
      !(containsSeq ('_' :: '_' :: []) s.data || lastIsUnderscore s.data)) := by
  unfold isSnakeCase
  by_cases h0 : s.data.length == 0
  · have hnil : s.data = [] := List.eq_nil_of_length_eq_zero (beq_iff_eq.mp h0)
    simp [hnil, headIsLow]
  · rw [Bool.not_eq_true] at h0
    have hlen : ¬ s.length = 0 := by simpa using h0
    cases h1 : headIsLow s.data <;> cases h2 : snakePat s.data <;>
      cases h3 : containsSeq ('_' :: '_' :: []) s.data <;>
      cases h4 : lastIsUnderscore s.data <;> simp [h0, h1, h2, h3, h4, hlen]

theorem isCamelCase_iff (s : String) :
    isCamelCase s = true ↔
      ∃ c rest, s.data = c :: rest ∧ low c = true ∧ ∀ x ∈ rest, alnum x = true := by
  rw [isCamelCase_eq]
  cases hd : s.data with
  | nil => simp [headIsLow]
  | cons c rest =>
    simp only [headIsLow, camelPat, Bool.and_eq_true, List.all_eq_true, List.cons.injEq]
    constructor
    · rintro ⟨h1, _, h2⟩
      exact ⟨c, rest, ⟨rfl, rfl⟩, h1, h2⟩
    · rintro ⟨c2, r2, ⟨rfl, rfl⟩, h1, h2⟩
      exact ⟨h1, h1, h2⟩

theorem isSnakeCase_iff (s : String) :
    isSnakeCase s = true ↔
      ∃ c rest, s.data = c :: rest ∧ low c = true ∧
        (∀ x ∈ rest, ld x = true ∨ x = '_') ∧
        (¬ ∃ l1 l2, s.data = l1 ++ '_' :: '_' :: l2) ∧ s.data.getLast? ≠ some '_' := by
  rw [isSnakeCase_eq]
  cases hd : s.data with
  | nil => simp [headIsLow]
  | cons c rest =>
    simp only [headIsLow, snakePat, Bool.and_eq_true, Bool.not_eq_true', Bool.or_eq_false_iff,
      List.all_eq_true, List.cons.injEq]
    constructor
    · rintro ⟨⟨h1, _, h2⟩, h3, h4⟩
      refine ⟨c, rest, ⟨rfl, rfl⟩, h1, ?_, ?_, ?_⟩
      · intro x hx
        have := h2 x hx
        rcases Bool.or_eq_true_iff.mp this with h | h
        · exact Or.inl h
        · exact Or.inr (by simpa using h)
      · intro hx
        obtain ⟨l1, l2, hx2⟩ := hx
        rw [(containsSeq_iff ('_' :: '_' :: []) (c :: rest)).mpr ⟨l1, l2, by simpa using hx2⟩] at h3
        exact absurd h3 (by simp)
      · intro hx
        rw [(lastIsUnderscore_iff _).mpr hx] at h4
        exact absurd h4 (by simp)
    · rintro ⟨c2, r2, ⟨rfl, rfl⟩, h1, h2, h3, h4⟩
      refine ⟨⟨h1, h1, ?_⟩, ?_, ?_⟩
      · intro x hx
        rcases h2 x hx with h | h <;> simp [h]
      · rw [← Bool.not_eq_true]
        intro hx
        obtain ⟨l1, l2, hx2⟩ := (containsSeq_iff ('_' :: '_' :: []) (c :: rest)).mp hx
        exact h3 ⟨l1, l2, by simpa using hx2⟩
      · rw [← Bool.not_eq_true]
        intro hx
        exact h4 ((lastIsUnderscore_iff _).mp hx)

/-! ## Small character facts -/

theorem up_us : up '_' = false := by decide

theorem low_false_of_up {c : Char} (h : up c = true) : low c = false := by
  cases hl : low c
  · rfl
  · rw [up_iff] at h; rw [low_iff] at hl; omega

theorem low_false_of_dig {c : Char} (h : dig c = true) : low c = false := by
  cases hl : low c
  · rfl
  · rw [dig_iff] at h; rw [low_iff] at hl; omega

theorem toUpperCh_eq_self {c : Char} (h : low c = false) : toUpperCh c = c := by
  rw [toUpperCh, if_neg]
  simp [h]

theorem ne_us_of_ld {c : Char} (h : ld c = true) : c ≠ '_' := by
  intro he
  subst he
  exact absurd h (by decide)

theorem ne_us_of_low {c : Char} (h : low c = true) : c ≠ '_' :=
  ne_us_of_ld (ld_iff.mpr (Or.inl h))

theorem ld_of_low {c : Char} (h : low c = true) : ld c = true :=
  ld_iff.mpr (Or.inl h)

theorem ld_of_dig {c : Char} (h : dig c = true) : ld c = true :=
  ld_iff.mpr (Or.inr h)

theorem alnum_of_ld {c : Char} (h : ld c = true) : alnum c = true := by
  rcases ld_iff.mp h with h | h
  · exact alnum_iff.mpr (Or.inl h)
  · exact alnum_iff.mpr (Or.inr (Or.inr h))

theorem map_toLowerCh_id : ∀ l : List Char, (∀ x ∈ l, up x = false) → List.map toLowerCh l = l := by
  intro l h
  induction l with
  | nil => rfl
  | cons c r ih =>
    rw [List.map_cons, toLowerCh_eq_self (h c (by simp)), ih (fun x hx => h x (by simp [hx]))]

/-! ## Unfolding lemmas for okT -/

theorem okT_cons_ne {c : Char} (rest : List Char) (hc : c ≠ '_') :
    okT (c :: rest) = (ld c && okT rest) := by
  rw [okT.eq_def]
  simp [hc]

theorem okT_us_one (y : Char) : okT ('_' :: [y]) = low y := by
  rw [okT.eq_def]
  cases h : low y <;> simp [h]

theorem okT_us_cons_ne (y : Char) {u : Char} (rest3 : List Char) (hu : u ≠ '_') :
    okT ('_' :: y :: u :: rest3) = (low y && okT (u :: rest3)) := by
  rw [okT.eq_def]
  cases h : low y <;> simp [h, hu]

theorem okT_us_us (y z w : Char) (rest4 : List Char) :
    okT ('_' :: y :: '_' :: z :: w :: rest4) =
      (low y && (low z && low w && okT (w :: rest4))) := by
  rw [okT.eq_def]
  cases h : low y <;> simp [h]

theorem okT_us_nil : okT ('_' :: []) = false := by
  rw [okT.eq_def]
  simp

theorem okT_us_us_zero (y : Char) : okT ('_' :: y :: '_' :: []) = false := by
  rw [okT.eq_def]
  by_cases hy : low y = true <;> simp [hy]

theorem okT_us_us_one_way (y z : Char) : okT ('_' :: y :: '_' :: [z]) = false := by
  rw [okT.eq_def]
  by_cases hy : low y = true <;> simp [hy]

theorem okT_drop_us : ∀ l : List Char, okT ('_' :: l) = true → okT l = true := by
  intro l h
  match l with
  | [] => rfl
  | y :: rest2 =>
    match rest2 with
    | [] =>
      rw [okT_us_one] at h
      rw [okT_cons_ne [] (ne_us_of_low h), ld_of_low h]
      rfl
    | u :: rest3 =>
      by_cases hu : u = '_'
      · subst hu
        match rest3 with
        | [] => rw [okT_us_us_zero] at h; exact absurd h (by simp)
        | [z] => rw [okT_us_us_one_way] at h; exact absurd h (by simp)
        | z :: w :: rest4 =>
          rw [okT_us_us] at h
          simp only [Bool.and_eq_true] at h
          obtain ⟨hy, ⟨hz, hw⟩, hrec⟩ := h
          rw [okT_cons_ne _ (ne_us_of_low hy), ld_of_low hy,
              okT_us_cons_ne z _ (ne_us_of_low hw)]
          simp [hz, hw, hrec]
      · rw [okT_us_cons_ne y _ hu] at h
        simp only [Bool.and_eq_true] at h
        obtain ⟨hy, hrec⟩ := h
        rw [okT_cons_ne _ (ne_us_of_low hy), ld_of_low hy, hrec]
        rfl

theorem okT_chars_fuel :
    ∀ (n : Nat) (l : List Char), l.length ≤ n → okT l = true →
      ∀ x ∈ l, ld x = true ∨ x = '_' := by
  intro n
  induction n with
  | zero =>
    intro l hlen _ x hx
    have : l = [] := List.eq_nil_of_length_eq_zero (Nat.le_zero.mp hlen)
    subst this
    exact absurd hx (by simp)
  | succ n ih =>
    intro l hlen h x hx
    match l with
    | [] => exact absurd hx (by simp)
    | c :: rest =>
      by_cases hc : c = '_'
      · subst hc
        match rest with
        | [] => rw [okT_us_nil] at h; exact absurd h (by simp)
        | y :: rest2 =>
          match rest2 with
          | [] =>
            rw [okT_us_one] at h
            rcases List.mem_cons.mp hx with rfl | hx2
            · exact Or.inr rfl
            · rcases List.mem_singleton.mp hx2 with rfl
              exact Or.inl (ld_of_low h)
          | u :: rest3 =>
            by_cases hu : u = '_'
            · subst hu
              match rest3 with
              | [] => rw [okT_us_us_zero] at h; exact absurd h (by simp)
              | [z] => rw [okT_us_us_one_way] at h; exact absurd h (by simp)
              | z :: w :: rest4 =>
                rw [okT_us_us] at h
                simp only [Bool.and_eq_true] at h
                obtain ⟨hy, ⟨hz, hw⟩, hrec⟩ := h
                rcases List.mem_cons.mp hx with rfl | hx
                · exact Or.inr rfl
                rcases List.mem_cons.mp hx with rfl | hx
                · exact Or.inl (ld_of_low hy)
                rcases List.mem_cons.mp hx with rfl | hx
                · exact Or.inr rfl
                rcases List.mem_cons.mp hx with rfl | hx
                · exact Or.inl (ld_of_low hz)
                · have hlen2 : (w :: rest4).length ≤ n := by
                    simp only [List.length_cons] at hlen ⊢
                    omega
                  exact ih (w :: rest4) hlen2 hrec x hx
            · rw [okT_us_cons_ne y _ hu] at h
              simp only [Bool.and_eq_true] at h
              rcases List.mem_cons.mp hx with rfl | hx
              · exact Or.inr rfl
              rcases List.mem_cons.mp hx with rfl | hx
              · exact Or.inl (ld_of_low h.1)
              · have hlen2 : (u :: rest3).length ≤ n := by
                  simp only [List.length_cons] at hlen ⊢
                  omega
                exact ih (u :: rest3) hlen2 h.2 x hx
      · rw [okT_cons_ne _ hc] at h
        simp only [Bool.and_eq_true] at h
        rcases List.mem_cons.mp hx with rfl | hx
        · exact Or.inl h.1
        · have hlen2 : rest.length ≤ n := by
            simp only [List.length_cons] at hlen
            omega
          exact ih rest hlen2 h.2 x hx

theorem okT_chars (l : List Char) (h : okT l = true) :
    ∀ x ∈ l, ld x = true ∨ x = '_' :=
  okT_chars_fuel l.length l le_rfl h

/-! ## Step lemmas for the composed conversion `conv` -/

theorem ins1_shape (c : Char) (l : List Char) : ∃ t, ins1 (c :: l) = c :: t := by
  cases l with
  | nil => exact ⟨[], rfl⟩
  | cons b r =>
    rw [ins1]
    by_cases h : (ld c && up b) = true
    · rw [if_pos h]; exact ⟨_, rfl⟩
    · rw [if_neg h]; exact ⟨_, rfl⟩

theorem conv_single (c : Char) : conv [c] = [toLowerCh c] := rfl

theorem conv_ld_ld {c d : Char} (r : List Char) (hc : ld c = true) (hd : ld d = true) :
    conv (c :: d :: r) = c :: conv (d :: r) := by
  have h1 : ins1 (c :: d :: r) = c :: ins1 (d :: r) := by
    rw [ins1, if_neg]
    simp [up_false_of_ld hd]
  rw [conv, h1, ins2_cons_not_up _ (up_false_of_ld hc), List.map_cons,
      toLowerCh_eq_self (up_false_of_ld hc)]
  rfl

theorem conv_ld_up {c b : Char} (r : List Char) (hc : ld c = true) (hb : up b = true) :
    conv (c :: b :: r) = c :: '_' :: conv (b :: r) := by
  have h1 : ins1 (c :: b :: r) = c :: '_' :: ins1 (b :: r) := by
    rw [ins1, if_pos]
    simp [hc, hb]
  rw [conv, h1, ins2_cons_not_up _ (up_false_of_ld hc), ins2_cons_not_up _ up_us,
      List.map_cons, List.map_cons, toLowerCh_eq_self (up_false_of_ld hc),
      toLowerCh_eq_self up_us]
  rfl

theorem conv_up_ld {b d : Char} (r : List Char) (hb : up b = true) (hd : ld d = true) :
    conv (b :: d :: r) = toLowerCh b :: conv (d :: r) := by
  have h1 : ins1 (b :: d :: r) = b :: ins1 (d :: r) := by
    rw [ins1, if_neg]
    simp [ld_false_of_up hb]
  obtain ⟨t, ht⟩ := ins1_shape d r
  rw [conv, h1, ht, ins2_cons_snd_not_up b t (up_false_of_ld hd), List.map_cons, ← ht]
  rfl

theorem conv_up_up_nil {b : Char} (c : Char) (hb : up b = true) :
    conv [b, c] = [toLowerCh b, toLowerCh c] := by
  have h1 : ins1 [b, c] = [b, c] := by
    rw [ins1, if_neg]
    · rfl
    · simp [ld_false_of_up hb]
  rw [conv, h1]
  rfl

theorem conv_up_up_low {b c d : Char} (r : List Char) (hb : up b = true) (hc : up c = true)
    (hd : low d = true) :
    conv (b :: c :: d :: r) = toLowerCh b :: '_' :: conv (c :: d :: r) := by
  have h2 : ins1 (c :: d :: r) = c :: ins1 (d :: r) := by
    rw [ins1, if_neg]
    simp [ld_false_of_up hc]
  have h1 : ins1 (b :: c :: d :: r) = b :: c :: ins1 (d :: r) := by
    rw [ins1, if_neg, h2]
    simp [ld_false_of_up hb]
  obtain ⟨t, ht⟩ := ins1_shape d r
  have h3 : ins2 (b :: c :: d :: t) = b :: '_' :: ins2 (c :: d :: t) := by
    rw [ins2, if_pos]
    simp [hb, hc, hd]
  rw [conv, h1, ht, h3, List.map_cons, List.map_cons, toLowerCh_eq_self up_us, conv, h2, ht]

theorem conv_up_up_notlow {b c d : Char} (r : List Char) (hb : up b = true)
    (hc : up c = true) (hd : low d = false) :
    conv (b :: c :: d :: r) = toLowerCh b :: conv (c :: d :: r) := by
  have h2 : ins1 (c :: d :: r) = c :: ins1 (d :: r) := by
    rw [ins1, if_neg]
    simp [ld_false_of_up hc]
  have h1 : ins1 (b :: c :: d :: r) = b :: c :: ins1 (d :: r) := by
    rw [ins1, if_neg, h2]
    simp [ld_false_of_up hb]
  obtain ⟨t, ht⟩ := ins1_shape d r
  have h3 : ins2 (b :: c :: d :: t) = b :: ins2 (c :: d :: t) := by
    rw [ins2, if_neg]
    simp [hd]
  rw [conv, h1, ht, h3, List.map_cons, conv, h2, ht]

/-! ## camelToSnake outputs satisfy the okT shape invariant -/

theorem convOkA :
    ∀ (n : Nat) (l : List Char), l.length ≤ n → (∀ x ∈ l, alnum x = true) →
      ∀ c rest, l = c :: rest →
        (ld c = true → okT (conv l) = true ∧ ∃ o, conv l = c :: o) ∧
        (up c = true → okT ('_' :: conv l) = true ∧ ∃ o, conv l = toLowerCh c :: o) := by
  intro n
  induction n with
  | zero =>
    intro l hlen _ c rest hl
    subst hl
    simp at hlen
  | succ n ih =>
    intro l hlen halnum c rest hl
    subst hl
    constructor
    · intro hld
      match rest with
      | [] =>
        rw [conv_single, toLowerCh_eq_self (up_false_of_ld hld)]
        refine ⟨?_, [], rfl⟩
        rw [okT_cons_ne [] (ne_us_of_ld hld)]
        simp [hld]
        rfl
      | d :: r2 =>
        have hd : alnum d = true := halnum d (List.mem_cons_of_mem c (List.mem_cons_self d r2))
        have hlen2 : (d :: r2).length ≤ n := by
          simp only [List.length_cons] at hlen ⊢
          omega
        have halnum2 : ∀ x ∈ d :: r2, alnum x = true :=
          fun x hx => halnum x (List.mem_cons_of_mem c hx)
        have hd2 : ld d = true ∨ up d = true := by
          rcases alnum_iff.mp hd with h | h | h
          · exact Or.inl (ld_of_low h)
          · exact Or.inr h
          · exact Or.inl (ld_of_dig h)
        rcases hd2 with hdld | hdup
        · rw [conv_ld_ld r2 hld hdld]
          obtain ⟨hok, o, ho⟩ := (ih (d :: r2) hlen2 halnum2 d r2 rfl).1 hdld
          refine ⟨?_, conv (d :: r2), rfl⟩
          rw [okT_cons_ne _ (ne_us_of_ld hld)]
          simp [hld, hok]
        · rw [conv_ld_up r2 hld hdup]
          obtain ⟨hok, o, ho⟩ := (ih (d :: r2) hlen2 halnum2 d r2 rfl).2 hdup
          refine ⟨?_, '_' :: conv (d :: r2), rfl⟩
          rw [okT_cons_ne _ (ne_us_of_ld hld)]
          simp [hld, hok]
    · intro hup
      match rest with
      | [] =>
        rw [conv_single]
        refine ⟨?_, [], rfl⟩
        rw [okT_us_one]
        exact low_toLowerCh hup
      | ch2 :: r2 =>
        have h2 : alnum ch2 = true := halnum ch2 (List.mem_cons_of_mem c (List.mem_cons_self ch2 r2))
        have hlen2 : (ch2 :: r2).length ≤ n := by
          simp only [List.length_cons] at hlen ⊢
          omega
        have halnum2 : ∀ x ∈ ch2 :: r2, alnum x = true :=
          fun x hx => halnum x (List.mem_cons_of_mem c hx)
        have h22 : ld ch2 = true ∨ up ch2 = true := by
          rcases alnum_iff.mp h2 with h | h | h
          · exact Or.inl (ld_of_low h)
          · exact Or.inr h
          · exact Or.inl (ld_of_dig h)
        rcases h22 with h2ld | h2up
        · rw [conv_up_ld r2 hup h2ld]
          obtain ⟨hok, o, ho⟩ := (ih (ch2 :: r2) hlen2 halnum2 ch2 r2 rfl).1 h2ld
          refine ⟨?_, conv (ch2 :: r2), rfl⟩
          rw [ho, okT_us_cons_ne (toLowerCh c) o (ne_us_of_ld h2ld)]
          simp only [low_toLowerCh hup, Bool.true_and]
          rw [← ho]
          exact hok
        · match r2 with
          | [] =>
            rw [conv_up_up_nil ch2 hup]
            refine ⟨?_, [toLowerCh ch2], rfl⟩
            rw [okT_us_cons_ne (toLowerCh c) [] (ne_us_of_low (low_toLowerCh h2up))]
            simp only [low_toLowerCh hup, Bool.true_and]
            rw [okT_cons_ne [] (ne_us_of_low (low_toLowerCh h2up))]
            simp [ld_of_low (low_toLowerCh h2up)]
            rfl
          | d :: r3 =>
            have hd : alnum d = true :=
              halnum d (List.mem_cons_of_mem c (List.mem_cons_of_mem ch2 (List.mem_cons_self d r3)))
            have hdcase : low d = true ∨ low d = false := by
              cases h : low d
              · exact Or.inr rfl
              · exact Or.inl rfl
            rcases hdcase with hdlow | hdnotlow
            · have hlen3 : (d :: r3).length ≤ n := by
                simp only [List.length_cons] at hlen ⊢
                omega
              have halnum3 : ∀ x ∈ d :: r3, alnum x = true :=
                fun x hx => halnum x (List.mem_cons_of_mem c (List.mem_cons_of_mem ch2 hx))
              rw [conv_up_up_low r3 hup h2up hdlow, conv_up_ld r3 h2up (ld_of_low hdlow)]
              obtain ⟨hok, o, ho⟩ := (ih (d :: r3) hlen3 halnum3 d r3 rfl).1 (ld_of_low hdlow)
              refine ⟨?_, '_' :: toLowerCh ch2 :: conv (d :: r3), rfl⟩
              rw [ho, okT_us_us (toLowerCh c) (toLowerCh ch2) d o]
              simp only [low_toLowerCh hup, low_toLowerCh h2up, hdlow, Bool.true_and]
              rw [← ho]
              exact hok
            · rw [conv_up_up_notlow r3 hup h2up hdnotlow]
              obtain ⟨hok, o, ho⟩ := (ih (ch2 :: d :: r3) hlen2 halnum2 ch2 (d :: r3) rfl).2 h2up
              refine ⟨?_, conv (ch2 :: d :: r3), rfl⟩
              rw [ho] at hok ⊢
              rw [okT_us_cons_ne (toLowerCh c) o (ne_us_of_low (low_toLowerCh h2up))]
              simp only [low_toLowerCh hup, Bool.true_and]
              exact okT_drop_us (toLowerCh ch2 :: o) hok

/-! ## The conversion is a left inverse of sc on okT-shaped strings -/

theorem sc_cons_ne {c : Char} (l : List Char) (hc : c ≠ '_') : sc (c :: l) = c :: sc l := by
  rw [sc.eq_def]
  simp [hc]

theorem sc_us_ld {d : Char} (l : List Char) (hd : ld d = true) :
    sc ('_' :: d :: l) = toUpperCh d :: sc l := by
  rw [sc.eq_def]
  simp [hd]

theorem convB :
    ∀ (n : Nat) (t : List Char), t.length ≤ n →
      ∀ c rest, t = c :: rest → ld c = true → okT rest = true → conv (sc t) = t := by
  intro n
  induction n with
  | zero =>
    intro t hlen c rest ht
    subst ht
    simp at hlen
  | succ n ih =>
    intro t hlen c rest ht hld hok
    subst ht
    have hcne : c ≠ '_' := ne_us_of_ld hld
    match rest with
    | [] =>
      rw [sc_cons_ne [] hcne]
      rw [show sc [] = [] from rfl, conv_single, toLowerCh_eq_self (up_false_of_ld hld)]
    | d :: r2 =>
      by_cases hdus : d = '_'
      · subst hdus
        match r2 with
        | [] => rw [okT_us_nil] at hok; exact absurd hok (by simp)
        | y :: rest3 =>
          match rest3 with
          | [] =>
            rw [okT_us_one] at hok
            rw [sc_cons_ne _ hcne, sc_us_ld [] (ld_of_low hok)]
            rw [show sc [] = [] from rfl, conv_ld_up [] hld (up_toUpperCh hok), conv_single,
                toLowerCh_toUpperCh hok]
          | u :: rest4 =>
            by_cases huus : u = '_'
            · subst huus
              match rest4 with
              | [] => rw [okT_us_us_zero] at hok; exact absurd hok (by simp)
              | [z] => rw [okT_us_us_one_way] at hok; exact absurd hok (by simp)
              | z :: w :: rest5 =>
                rw [okT_us_us] at hok
                simp only [Bool.and_eq_true] at hok
                obtain ⟨hy, ⟨hz, hw⟩, hrec⟩ := hok
                have hwne : w ≠ '_' := ne_us_of_low hw
                rw [sc_cons_ne _ hcne, sc_us_ld _ (ld_of_low hy), sc_us_ld _ (ld_of_low hz),
                    sc_cons_ne _ hwne]
                rw [conv_ld_up _ hld (up_toUpperCh hy),
                    conv_up_up_low _ (up_toUpperCh hy) (up_toUpperCh hz) hw,
                    conv_up_ld _ (up_toUpperCh hz) (ld_of_low hw),
                    toLowerCh_toUpperCh hy, toLowerCh_toUpperCh hz]
                have hlen5 : (w :: rest5).length ≤ n := by
                  simp only [List.length_cons] at hlen ⊢
                  omega
                have hokw : okT rest5 = true := by
                  rw [okT_cons_ne rest5 hwne] at hrec
                  simp only [Bool.and_eq_true] at hrec
                  exact hrec.2
                have hIH := ih (w :: rest5) hlen5 w rest5 rfl (ld_of_low hw) hokw
                rw [sc_cons_ne rest5 hwne] at hIH
                rw [hIH]
            · rw [okT_us_cons_ne y rest4 huus] at hok
              simp only [Bool.and_eq_true] at hok
              obtain ⟨hy, hrec⟩ := hok
              have hu : ld u = true := by
                rw [okT_cons_ne rest4 huus] at hrec
                simp only [Bool.and_eq_true] at hrec
                exact hrec.1
              have hokr4 : okT rest4 = true := by
                rw [okT_cons_ne rest4 huus] at hrec
                simp only [Bool.and_eq_true] at hrec
                exact hrec.2
              rw [sc_cons_ne _ hcne, sc_us_ld _ (ld_of_low hy), sc_cons_ne _ huus]
              rw [conv_ld_up _ hld (up_toUpperCh hy),
                  conv_up_ld _ (up_toUpperCh hy) hu, toLowerCh_toUpperCh hy]
              have hlen4 : (u :: rest4).length ≤ n := by
                simp only [List.length_cons] at hlen ⊢
                omega
              have hIH := ih (u :: rest4) hlen4 u rest4 rfl hu hokr4
              rw [sc_cons_ne rest4 huus] at hIH
              rw [hIH]
      · rw [okT_cons_ne r2 hdus] at hok
        simp only [Bool.and_eq_true] at hok
        obtain ⟨hdld, hokr2⟩ := hok
        rw [sc_cons_ne _ hcne, sc_cons_ne _ hdus, conv_ld_ld _ hld hdld]
        have hlen2 : (d :: r2).length ≤ n := by
          simp only [List.length_cons] at hlen ⊢
          omega
        have hIH := ih (d :: r2) hlen2 d r2 rfl hdld hokr2
        rw [sc_cons_ne r2 hdus] at hIH
        rw [hIH]

/-! ## okT outputs are valid snake_case bodies -/

theorem containsSeq_tail {pat : List Char} {c : Char} {cs : List Char}
    (h : containsSeq pat (c :: cs) = false) : containsSeq pat cs = false := by
  rw [containsSeq] at h
  simp only [Bool.or_eq_false_iff] at h
  exact h.2

theorem lastIsUnderscore_tail {d : Char} {r : List Char}
    (h : lastIsUnderscore (d :: r) = false) : lastIsUnderscore r = false := by
  match r with
  | [] => rfl
  | e :: r2 => exact h

theorem okT_last_fuel :
    ∀ (n : Nat) (l : List Char), l.length ≤ n → okT l = true →
      lastIsUnderscore l = false := by
  intro n
  induction n with
  | zero =>
    intro l hlen _
    have : l = [] := List.eq_nil_of_length_eq_zero (Nat.le_zero.mp hlen)
    subst this
    rfl
  | succ n ih =>
    intro l hlen h
    match l with
    | [] => rfl
    | [c] =>
      by_cases hc : c = '_'
      · subst hc; rw [okT_us_nil] at h; exact absurd h (by simp)
      · simp [lastIsUnderscore, hc]
    | c :: d :: r =>
      have hstep : okT (d :: r) = true := by
        by_cases hc : c = '_'
        · subst hc; exact okT_drop_us (d :: r) h
        · rw [okT_cons_ne _ hc] at h
          simp only [Bool.and_eq_true] at h
          exact h.2
      have hlen2 : (d :: r).length ≤ n := by
        simp only [List.length_cons] at hlen ⊢
        omega
      exact ih (d :: r) hlen2 hstep

theorem okT_no_uu_fuel :
    ∀ (n : Nat) (l : List Char), l.length ≤ n → okT l = true →
      containsSeq ('_' :: '_' :: []) l = false := by
  intro n
  induction n with
  | zero =>
    intro l hlen _
    have : l = [] := List.eq_nil_of_length_eq_zero (Nat.le_zero.mp hlen)
    subst this
    rfl
  | succ n ih =>
    intro l hlen h
    match l with
    | [] => rfl
    | c :: rest =>
      by_cases hc : c = '_'
      · subst hc
        match rest with
        | [] => rw [okT_us_nil] at h; exact absurd h (by simp)
        | y :: rest2 =>
          have hy : low y = true := by
            rw [okT.eq_def] at h
            by_cases hy : low y = true
            · exact hy
            · simp [hy] at h
          have hyne : ('_' == y) = false := by
            simp [(ne_us_of_low hy).symm]
          have hrec : okT (y :: rest2) = true := okT_drop_us (y :: rest2) h
          have hlen2 : (y :: rest2).length ≤ n := by
            simp only [List.length_cons] at hlen ⊢
            omega
          have htail := ih (y :: rest2) hlen2 hrec
          rw [containsSeq]
          simp only [Bool.or_eq_false_iff]
          refine ⟨?_, htail⟩
          rw [leadsWith, leadsWith]
          simp [hyne]
      · have hcne : ('_' == c) = false := by
          have : ¬ ('_' : Char) = c := fun he => hc he.symm
          simp [this]
        rw [okT_cons_ne _ hc] at h
        simp only [Bool.and_eq_true] at h
        have hlen2 : rest.length ≤ n := by
          simp only [List.length_cons] at hlen
          omega
        rw [containsSeq]
        simp only [Bool.or_eq_false_iff]
        refine ⟨?_, ih rest hlen2 h.2⟩
        rw [leadsWith]
        simp [hcne]

/-! ## sc maps snake_case strings into alphanumeric strings -/

theorem scAlnum_fuel :
    ∀ (n : Nat) (l : List Char), l.length ≤ n →
      (∀ x ∈ l, ld x = true ∨ x = '_') →
      containsSeq ('_' :: '_' :: []) l = false →
      lastIsUnderscore l = false →
      ∀ y ∈ sc l, alnum y = true := by
  intro n
  induction n with
  | zero =>
    intro l hlen _ _ _ y hy
    have : l = [] := List.eq_nil_of_length_eq_zero (Nat.le_zero.mp hlen)
    subst this
    exact absurd hy (by simp [show sc [] = [] from rfl])
  | succ n ih =>
    intro l hlen hchars hno2 hlast y hy
    match l with
    | [] => exact absurd hy (by simp [show sc [] = [] from rfl])
    | c :: rest =>
      by_cases hc : c = '_'
      · subst hc
        match rest with
        | [] => exact absurd hlast (by simp [lastIsUnderscore])
        | d :: r2 =>
          have hdne : d ≠ '_' := by
            intro he
            subst he
            rw [containsSeq] at hno2
            simp only [Bool.or_eq_false_iff] at hno2
            have := hno2.1
            rw [leadsWith, leadsWith, leadsWith] at this
            simp at this
          have hdld : ld d = true := by
            rcases hchars d (List.mem_cons_of_mem _ (List.mem_cons_self d r2)) with h1 | h1
            · exact h1
            · exact absurd h1 hdne
          rw [sc_us_ld r2 hdld] at hy
          rcases List.mem_cons.mp hy with rfl | hy2
          · rcases ld_iff.mp hdld with h1 | h1
            · exact alnum_iff.mpr (Or.inr (Or.inl (up_toUpperCh h1)))
            · rw [toUpperCh_eq_self (low_false_of_dig h1)]
              exact alnum_iff.mpr (Or.inr (Or.inr h1))
          · have hlen2 : r2.length ≤ n := by
              simp only [List.length_cons] at hlen
              omega
            have hchars2 : ∀ x ∈ r2, ld x = true ∨ x = '_' :=
              fun x hx => hchars x (List.mem_cons_of_mem _ (List.mem_cons_of_mem _ hx))
            have hno22 : containsSeq ('_' :: '_' :: []) r2 = false :=
              containsSeq_tail (containsSeq_tail hno2)
            have hlast2 : lastIsUnderscore r2 = false :=
              lastIsUnderscore_tail (lastIsUnderscore_tail hlast)
            exact ih r2 hlen2 hchars2 hno22 hlast2 y hy2
      · rw [sc_cons_ne rest hc] at hy
        rcases List.mem_cons.mp hy with rfl | hy2
        · rcases hchars y (List.mem_cons_self y rest) with h1 | h1
          · exact alnum_of_ld h1
          · exact absurd h1 hc
        · have hlen2 : rest.length ≤ n := by
            simp only [List.length_cons] at hlen
            omega
          have hchars2 : ∀ x ∈ rest, ld x = true ∨ x = '_' :=
            fun x hx => hchars x (List.mem_cons_of_mem _ hx)
          exact ih rest hlen2 hchars2 (containsSeq_tail hno2)
            (lastIsUnderscore_tail hlast) y hy2

/-! ## Behaviour of the pipe scanner's line loop -/

theorem pipeGo_no_sql (f : String) :
    ∀ (ls : List (List Char)) (n : Nat),
      (∀ l ∈ ls, sqlStartLine l = false) → pipeGo f n false ls = [] := by
  intro ls
  induction ls with
  | nil => intro n _; rfl
  | cons line rest ih =>
    intro n h
    have h1 : sqlStartLine line = false := h line (by simp)
    simp only [pipeGo, h1, Bool.or_false, Bool.false_or, if_false]
    exact ih (n + 1) (fun l hl => h l (by simp [hl]))

theorem pipeGo_in_block (f : String) :
    ∀ (ls : List (List Char)) (n : Nat), pipeGo f n true ls = allPipeIssues f n ls := by
  intro ls
  induction ls with
  | nil => intro n; rfl
  | cons line rest ih =>
    intro n
    simp only [pipeGo, allPipeIssues, Bool.true_or, if_true, ih]

/-! ## Claim theorems -/

/-- C1: camelToSnake implements exactly the two-rule boundary algorithm:
    for every string it inserts an underscore between a lowercase-or-digit
    character and a following uppercase character, inserts an underscore
    between an uppercase character and a following uppercase-then-lowercase
    pair, then lowercases the whole result; in particular on the documented
    examples. -/
theorem camelToSnake_spec_rules :
    (∀ s : String, camelToSnake s = camelToSnakeSpec s) ∧
    camelToSnake "userId" = "user_id" ∧ camelToSnake "userID" = "user_id" ∧
    camelToSnake "userIDToken" = "user_id_token" ∧
    camelToSnake "HTTPResponse" = "http_response" ∧
    camelToSnake "parseHTMLString" = "parse_html_string" ∧
    camelToSnake "user123Id" = "user123_id" ∧
    camelToSnake "" = "" := by
  refine ⟨fun s => ?_, by decide, by decide, by decide, by decide, by decide, by decide,
    by decide⟩
  by_cases h : s = ""
  · subst h; decide
  · rw [camelToSnake, if_neg h, camelToSnakeSpec, pass1_eq_ins1, pass2_eq_ins2]

/-- C3 counterexample: on the query text
    `SELECT user_id AS userId, session_id AS session_id FROM events`
    parsePipe does not return exactly one issue. -/
theorem parsePipe_scenario_not_single :
    ((parsePipe "SELECT user_id AS userId, session_id AS session_id FROM events"
      "q.pipe").length = 1) = False := by
  decide

/-- C3 amended: on the scenario query text parsePipe returns exactly two
    issues, both reporting the alias session_id failing the camelCase
    requirement (one from the AS-pair check and one from the additional
    snake_case-alias check), and no issue mentions user_id or userId. -/
theorem parsePipe_scenario_two_issues :
    parsePipe "SELECT user_id AS userId, session_id AS session_id FROM events" "q.pipe" =
      [⟨"q.pipe", 1, "session_id",
        "Alias \"session_id\" should be in camelCase for API output", "error"⟩,
       ⟨"q.pipe", 1, "session_id",
        "Alias \"session_id\" is snake_case but should be camelCase for API output",
        "error"⟩] := by
  decide

/-- C4 counterexample: for the datasource content whose SCHEMA header is
    line 1 and whose schema section is `user_id String,`, `userId String,`,
    `session_id String`, the issue list is not one issue at line 2 (the
    lines of the issues are [3], not [2]). -/
theorem parseDatasource_line2_refuted :
    ((parseDatasource "SCHEMA >\n    user_id String,\n    userId String,\n    session_id String"
      "t.datasource").map LintIssue.line = [2]) = False := by
  decide

/-- C4 amended: for that datasource content parseDatasource returns exactly
    one issue, at line 3 (the line carrying `userId String,`), naming
    column userId, with a message containing "snake_case". -/
theorem parseDatasource_scenario_line3 :
    parseDatasource "SCHEMA >\n    user_id String,\n    userId String,\n    session_id String"
      "t.datasource" =
      [⟨"t.datasource", 3, "userId",
        "Column name \"userId\" should be in snake_case", "error"⟩] ∧
    containsSeq "snake_case".data
      "Column name \"userId\" should be in snake_case".data = true := by
  constructor
  · decide
  · decide

/-- C5: isCamelCase s is true exactly when s is non-empty, its first
    character is a lowercase ASCII letter, and every character is an ASCII
    letter or digit. -/
theorem isCamelCase_characterization (s : String) :
    isCamelCase s = true ↔
      ∃ c rest, s.data = c :: rest ∧ low c = true ∧ ∀ x ∈ rest, alnum x = true :=
  isCamelCase_iff s

/-- C6: isSnakeCase s is true exactly when s is non-empty, starts with a
    lowercase ASCII letter, consists only of lowercase letters, digits and
    underscores, has no two consecutive underscores, and does not end with
    an underscore. -/
theorem isSnakeCase_characterization (s : String) :
    isSnakeCase s = true ↔
      ∃ c rest, s.data = c :: rest ∧ low c = true ∧
        (∀ x ∈ rest, ld x = true ∨ x = '_') ∧
        (¬ ∃ l1 l2, s.data = l1 ++ '_' :: '_' :: l2) ∧ s.data.getLast? ≠ some '_' :=
  isSnakeCase_iff s

/-- C7 counterexample: the claim's rule "every underscore followed by a
    character is removed and the character uppercased" disagrees with
    snakeToCamel at "a__b": the code leaves the first underscore (its rule
    requires a following lowercase letter or digit), giving "a_B", while
    the claimed rule gives "a_b". -/
theorem snakeToCamel_claim_rule_refuted :
    snakeToCamelClaim "a__b" = "a_b" ∧ snakeToCamel "a__b" = "a_B" ∧
    (snakeToCamel "a__b" = snakeToCamelClaim "a__b") = False := by
  refine ⟨by decide, by decide, by decide⟩

/-- C7 amended: snakeToCamel lowercases the whole input, then removes every
    underscore followed by a lowercase letter or digit and uppercases that
    following character (digits unchanged, underscore still removed),
    leaving other underscores in place; in particular on the documented
    examples. -/
theorem snakeToCamel_amended_rules :
    (∀ s : String, snakeToCamel s = snakeToCamelAmended s) ∧
    snakeToCamel "user_id" = "userId" ∧ snakeToCamel "user_123_id" = "user123Id" ∧
    snakeToCamel "" = "" := by
  refine ⟨fun s => ?_, by decide, by decide, by decide⟩
  by_cases h : s = ""
  · subst h; decide
  · rw [snakeToCamel, if_neg h, snakeToCamelAmended, sc_eq_scAmended]

/-- C8: validateMapping is exact string equality with the converter's
    output: validateMapping a b is true iff camelToSnake a = b, with the
    documented examples. -/
theorem validateMapping_characterization :
    (∀ a b : String, validateMapping a b = true ↔ camelToSnake a = b) ∧
    validateMapping "userId" "user_id" = true ∧
    validateMapping "userId" "userid" = false ∧
    validateMapping "userIDToken" "user_id_token" = true := by
  refine ⟨fun a b => ?_, by decide, by decide, by decide⟩
  simp [validateMapping]

/-- C10: parsePipe checks nothing before a SQL block begins, and once a
    line starts a block the flag is never reset: if no line (after trimming
    and uppercasing) starts with SELECT or WITH the result is empty, and
    with the flag set every remaining line is scanned. -/
theorem parsePipe_block_invariant :
    (∀ content f : String,
      (∀ l ∈ splitLines content.data, sqlStartLine l = false) → parsePipe content f = []) ∧
    (∀ (f : String) (n : Nat) (ls : List (List Char)),
      pipeGo f n true ls = allPipeIssues f n ls) := by
  constructor
  · intro content f h
    rw [parsePipe]
    exact pipeGo_no_sql f (splitLines content.data) 1 h
  · intro f n ls
    exact pipeGo_in_block f ls n

/-- C10 witness: a content with `AS` alias patterns but no SELECT/WITH line
    produces no issues, and a concrete in-block run scans every line. -/
theorem parsePipe_block_invariant_witness :
    parsePipe "col_a AS colA, x_y AS x_y\nfoo_bar AS foo_bar" "w.pipe" = [] :=
  parsePipe_block_invariant.1 "col_a AS colA, x_y AS x_y\nfoo_bar AS foo_bar" "w.pipe"
    (by decide)

/-- C2: the conversion is stable on outputs of its own inverse: for every
    camelCase string s, camelToSnake (snakeToCamel (camelToSnake s)) equals
    camelToSnake s. -/
theorem camelToSnake_roundtrip_stable (s : String) (h : isCamelCase s = true) :
    camelToSnake (snakeToCamel (camelToSnake s)) = camelToSnake s := by
  obtain ⟨c, rest, hd, hc, hall⟩ := (isCamelCase_iff s).mp h
  have hs : s ≠ "" := by
    intro he
    subst he
    simp at hd
  have hconv : camelToSnake s = String.mk (conv s.data) := by
    rw [camelToSnake, if_neg hs, pass1_eq_ins1, pass2_eq_ins2]
    rfl
  have halnum : ∀ x ∈ s.data, alnum x = true := by
    rw [hd]
    intro x hx
    rcases List.mem_cons.mp hx with rfl | hx2
    · exact alnum_iff.mpr (Or.inl hc)
    · exact hall x hx2
  obtain ⟨hok, o, ho⟩ := (convOkA s.data.length s.data le_rfl halnum c rest hd).1 (ld_of_low hc)
  have hoko : okT o = true := by
    rw [ho, okT_cons_ne o (ne_us_of_low hc)] at hok
    simp only [Bool.and_eq_true] at hok
    exact hok.2
  have hnoup : ∀ x ∈ conv s.data, up x = false := by
    intro x hx
    rcases okT_chars (conv s.data) hok x hx with h1 | h1
    · exact up_false_of_ld h1
    · subst h1
      exact up_us
  have hne1 : String.mk (conv s.data) ≠ "" := by
    rw [ho]
    intro he
    exact absurd (congrArg String.data he) (by simp)
  have h2 : snakeToCamel (String.mk (conv s.data)) = String.mk (sc (conv s.data)) := by
    rw [snakeToCamel, if_neg hne1]
    rw [show (String.mk (conv s.data)).data = conv s.data from rfl]
    rw [map_toLowerCh_id (conv s.data) hnoup]
  have hscne : String.mk (sc (conv s.data)) ≠ "" := by
    rw [ho, sc_cons_ne o (ne_us_of_low hc)]
    intro he
    exact absurd (congrArg String.data he) (by simp)
  have h3 : camelToSnake (String.mk (sc (conv s.data))) =
      String.mk (conv (sc (conv s.data))) := by
    rw [camelToSnake, if_neg hscne, pass1_eq_ins1, pass2_eq_ins2]
    rfl
  have hB := convB (conv s.data).length (conv s.data) le_rfl c o ho (ld_of_low hc) hoko
  rw [hconv, h2, h3, hB]

/-- C2 witness: the roundtrip stability at the concrete acronym-bearing
    input "userIDToken". -/
theorem camelToSnake_roundtrip_stable_witness :
    isCamelCase "userIDToken" = true ∧
    camelToSnake (snakeToCamel (camelToSnake "userIDToken")) = camelToSnake "userIDToken" :=
  ⟨by decide, camelToSnake_roundtrip_stable "userIDToken" (by decide)⟩

/-- C9: the converters map each classifier's accepted domain into the
    other's: camelToSnake sends camelCase strings to snake_case strings,
    and snakeToCamel sends snake_case strings to camelCase strings. -/
theorem converters_map_domains :
    (∀ s : String, isCamelCase s = true → isSnakeCase (camelToSnake s) = true) ∧
    (∀ s : String, isSnakeCase s = true → isCamelCase (snakeToCamel s) = true) := by
  constructor
  · intro s h
    obtain ⟨c, rest, hd, hc, hall⟩ := (isCamelCase_iff s).mp h
    have hs : s ≠ "" := by
      intro he
      subst he
      simp at hd
    have hconv : camelToSnake s = String.mk (conv s.data) := by
      rw [camelToSnake, if_neg hs, pass1_eq_ins1, pass2_eq_ins2]
      rfl
    have halnum : ∀ x ∈ s.data, alnum x = true := by
      rw [hd]
      intro x hx
      rcases List.mem_cons.mp hx with rfl | hx2
      · exact alnum_iff.mpr (Or.inl hc)
      · exact hall x hx2
    obtain ⟨hok, o, ho⟩ :=
      (convOkA s.data.length s.data le_rfl halnum c rest hd).1 (ld_of_low hc)
    rw [hconv, isSnakeCase_eq]
    rw [show (String.mk (conv s.data)).data = conv s.data from rfl]
    have hhead : headIsLow (conv s.data) = true := by
      rw [ho]
      simpa [headIsLow] using hc
    have hpat : snakePat (conv s.data) = true := by
      rw [ho, snakePat]
      simp only [Bool.and_eq_true]
      refine ⟨hc, List.all_eq_true.mpr ?_⟩
      intro x hx
      rcases okT_chars (conv s.data) hok x (ho ▸ List.mem_cons_of_mem c hx) with h1 | h1
      · simp [h1]
      · simp [h1]
    have hno2 : containsSeq ('_' :: '_' :: []) (conv s.data) = false :=
      okT_no_uu_fuel (conv s.data).length (conv s.data) le_rfl hok
    have hlast : lastIsUnderscore (conv s.data) = false :=
      okT_last_fuel (conv s.data).length (conv s.data) le_rfl hok
    rw [hhead, hpat, hno2, hlast]
    rfl
  · intro s h
    obtain ⟨c, rest, hd, hc, hall, hno2e, hlaste⟩ := (isSnakeCase_iff s).mp h
    have hs : s ≠ "" := by
      intro he
      subst he
      simp at hd
    have hchars : ∀ x ∈ s.data, ld x = true ∨ x = '_' := by
      rw [hd]
      intro x hx
      rcases List.mem_cons.mp hx with rfl | hx2
      · exact Or.inl (ld_of_low hc)
      · exact hall x hx2
    have hnoup : ∀ x ∈ s.data, up x = false := by
      intro x hx
      rcases hchars x hx with h1 | h1
      · exact up_false_of_ld h1
      · subst h1
        exact up_us
    have hno2 : containsSeq ('_' :: '_' :: []) s.data = false := by
      rw [← Bool.not_eq_true]
      intro hx
      obtain ⟨l1, l2, hx2⟩ := (containsSeq_iff ('_' :: '_' :: []) s.data).mp hx
      exact hno2e ⟨l1, l2, by simpa using hx2⟩
    have hlast : lastIsUnderscore s.data = false := by
      rw [← Bool.not_eq_true]
      intro hx
      exact hlaste ((lastIsUnderscore_iff s.data).mp hx)
    have h1 : snakeToCamel s = String.mk (sc s.data) := by
      rw [snakeToCamel, if_neg hs, map_toLowerCh_id s.data hnoup]
    rw [h1, isCamelCase_eq]
    rw [show (String.mk (sc s.data)).data = sc s.data from rfl]
    have halnum := scAlnum_fuel s.data.length s.data le_rfl hchars hno2 hlast
    have hshape : sc s.data = c :: sc rest := by
      rw [hd, sc_cons_ne rest (ne_us_of_low hc)]
    have hhead : headIsLow (sc s.data) = true := by
      rw [hshape]
      simpa [headIsLow] using hc
    have hpat : camelPat (sc s.data) = true := by
      rw [hshape, camelPat]
      simp only [Bool.and_eq_true]
      refine ⟨hc, List.all_eq_true.mpr ?_⟩
      intro x hx
      exact halnum x (hshape ▸ List.mem_cons_of_mem c hx)
    rw [hhead, hpat]
    rfl

/-- C9 witness: both domain mappings at concrete inputs. -/
theorem converters_map_domains_witness :
    isCamelCase "userId" = true ∧ isSnakeCase (camelToSnake "userId") = true ∧
    isSnakeCase "user_id" = true ∧ isCamelCase (snakeToCamel "user_id") = true :=
  ⟨by decide, converters_map_domains.1 "userId" (by decide),
   by decide, converters_map_domains.2 "user_id" (by decide)⟩

end TbLint